import Mathlib

/-!
Shallow embedding of the InstaAutomator data-processing core
(`data_processor.py`, `analytics.py`, `content_planner.py`).

Datasets (pandas DataFrames) are modelled as Lean lists of row structures.
Float arithmetic on the derived `engagement_rate` column is modelled by
`ERat`: an exact rational together with the IEEE special values `nan`,
`posInf` and `negInf`, with pandas division semantics (`x / 0 = +inf` for
`x > 0`, `-inf` for `x < 0`, `nan` for `0 / 0`).  The claims settled here
depend only on sign, zeroness, specialness and relative order of these
values, never on rounding, so exact rationals are faithful.
-/

namespace InstaAutomator

/-- Result type of pandas float arithmetic: a rational or an IEEE special
value.  `nan` arises from `0 / 0`, `posInf` / `negInf` from division of a
nonzero value by zero. -/
inductive ERat where
  | nan : ERat
  | negInf : ERat
  | posInf : ERat
  | val : ℚ → ERat
deriving DecidableEq, Repr

/-- Whether the value is the IEEE `NaN`. -/
def ERat.isNan : ERat → Bool
  | .nan => true
  | _ => false

/-- Total Boolean order used to model the sort underlying pandas
`nlargest` (`keep='first'`).  `nan` is placed least so that in a
descending sort `NaN` rows come last; no dataset produced by
`process_data` contains a `nan` rate (its `fillna(0)` replaces the only
`NaN`), so the placement of `nan` is unreachable there. -/
def ERat.leB : ERat → ERat → Bool
  | .nan, _ => true
  | _, .nan => false
  | .negInf, _ => true
  | _, .negInf => false
  | .val p, .val q => decide (p ≤ q)
  | .val _, .posInf => true
  | .posInf, .val _ => false
  | .posInf, .posInf => true

theorem ERat.leB_total (a b : ERat) : a.leB b = true ∨ b.leB a = true := by
  cases a <;> cases b <;> simp [ERat.leB] <;> exact le_total _ _

theorem ERat.leB_trans {a b c : ERat} (h₁ : a.leB b = true) (h₂ : b.leB c = true) :
    a.leB c = true := by
  cases a <;> cases b <;> cases c <;> simp_all [ERat.leB] <;> exact le_trans h₁ h₂

theorem ERat.leB_refl (a : ERat) : a.leB a = true := by
  cases a <;> simp [ERat.leB]

/-- IEEE addition on `ERat` (used by the groupby mean). -/
def ERat.add : ERat → ERat → ERat
  | .nan, _ => .nan
  | _, .nan => .nan
  | .posInf, .negInf => .nan
  | .negInf, .posInf => .nan
  | .posInf, _ => .posInf
  | _, .posInf => .posInf
  | .negInf, _ => .negInf
  | _, .negInf => .negInf
  | .val p, .val q => .val (p + q)

/-- Division of an `ERat` by a positive row count, for the groupby mean. -/
def ERat.divCount : ERat → ℕ → ERat
  | .nan, _ => .nan
  | .posInf, _ => .posInf
  | .negInf, _ => .negInf
  | .val q, n => .val (q / n)

/-- pandas `Series.mean()` with the default `skipna=True`: the mean of the
non-`nan` entries, `nan` on an empty (or all-`nan`) series. -/
def meanE (l : List ERat) : ERat :=
  let nn := l.filter (fun x => !x.isNan)
  if nn.isEmpty then .nan
  else (nn.foldl ERat.add (.val 0)).divCount nn.length

/-- pandas division of the engagement column by the reach column times 100:
exact rational division when `r ≠ 0`, IEEE special values when `r = 0`. -/
def rate100 (e r : ℚ) : ERat :=
  if r = 0 then (if 0 < e then .posInf else if e < 0 then .negInf else .nan)
  else .val (e / r * 100)

/-- pandas `.fillna(0)`: replaces `nan` (and only `nan`; the infinities are
not null) by `0`. -/
def fillnaZero : ERat → ERat
  | .nan => .val 0
  | x => x

/-- Weekday names as produced by pandas `Series.dt.day_name()`. -/
def dayNames : List String :=
  ["Monday", "Tuesday", "Wednesday", "Thursday", "Friday", "Saturday", "Sunday"]

/-- Timestamps are modelled as minutes since an epoch falling on a Monday
00:00 (the result of `pd.to_datetime`; string parsing itself is out of
scope, the spec flags it as unguarded).  Hour of day of a timestamp. -/
def hourOf (ts : ℕ) : ℕ := ts / 60 % 24

/-- Weekday name of a timestamp (full name, from `dt.day_name()`). -/
def dayOfWeekOf (ts : ℕ) : String := dayNames.getD (ts / 1440 % 7) ""

/-- Raw uploaded row: the six required columns, with the four count columns
possibly missing (`none` models `NaN`) before `fillna(0)`. -/
structure RawRow where
  date : ℕ
  likes : Option ℚ
  comments : Option ℚ
  reach : Option ℚ
  impressions : Option ℚ
  post_type : String
deriving DecidableEq, Repr

/-- Processed row: the columns derived by `DataProcessor.process_data`.
The `month`, ISO-`week` and hashtag columns the source also derives are
per-row additions no claim refers to, and are omitted from the model. -/
structure Row where
  date : ℕ
  likes : ℚ
  comments : ℚ
  reach : ℚ
  impressions : ℚ
  post_type : String
  engagement : ℚ
  engagement_rate : ERat
  day_of_week : String
  hour : ℕ
deriving DecidableEq, Repr

/-- pandas `.fillna(0)` on a count column. -/
def fill0 (o : Option ℚ) : ℚ := o.getD 0

/-- The per-row column derivations of `process_data` (lines 40-56 of
`data_processor.py`): fill the four count columns with 0, compute
`engagement = likes + comments` from the filled columns,
`engagement_rate = (engagement / reach * 100).fillna(0)`, and extract
`day_of_week` and `hour` from the date. -/
def enrich (r : RawRow) : Row :=
  { date := r.date
    likes := fill0 r.likes
    comments := fill0 r.comments
    reach := fill0 r.reach
    impressions := fill0 r.impressions
    post_type := r.post_type
    engagement := fill0 r.likes + fill0 r.comments
    engagement_rate := fillnaZero (rate100 (fill0 r.likes + fill0 r.comments) (fill0 r.reach))
    day_of_week := dayOfWeekOf r.date
    hour := hourOf r.date }

/-- Ordering of processed rows by date, for `sort_values('date')`. -/
def dateLe (a b : Row) : Prop := a.date ≤ b.date

instance : DecidableRel dateLe := fun a b => Nat.decLe a.date b.date

instance : IsTotal Row dateLe := ⟨fun a b => Nat.le_total a.date b.date⟩

instance : IsTrans Row dateLe := ⟨fun _ _ _ h h' => Nat.le_trans h h'⟩

/-- `DataProcessor.process_data`: derive the new columns row by row, then
`sort_values('date').reset_index(drop=True)`.  The model's list positions
are the dense 0-based index produced by `reset_index(drop=True)`.
(`sort_values` uses an unstable quicksort; the model fixes one
date-sorted permutation, which is all any claim depends on.) -/
def process_data (data : List RawRow) : List Row :=
  List.insertionSort dateLe (data.map enrich)

/-- Schema of an uploaded DataFrame as `validate_data` sees it: each column
name paired with whether `pd.api.types.is_numeric_dtype` holds for it. -/
structure Frame where
  cols : List (String × Bool)
deriving DecidableEq, Repr

/-- Column names of a frame (`data.columns`). -/
def Frame.names (f : Frame) : List String := f.cols.map Prod.fst

/-- Whether the first column of that name is numeric (`is_numeric_dtype
(data[c])`); only consulted after the presence check has passed. -/
def Frame.numeric (f : Frame) (c : String) : Bool :=
  ((f.cols.find? (fun p => p.1 = c)).map Prod.snd).getD false

/-- The required columns of `DataProcessor`. -/
def required_columns : List String :=
  ["date", "likes", "comments", "reach", "impressions", "post_type"]

/-- `DataProcessor.validate_data`: fail when a required column is missing,
then fail when any of the four count columns is non-numeric, else pass.
The Python body wraps everything in `try/except Exception: return False`;
the model is a total `Bool`-valued function, so the fail-closed behaviour
is that no input can make it raise. -/
def validate_data (f : Frame) : Bool :=
  let missing_columns := required_columns.filter (fun c => ¬ c ∈ f.names)
  if ¬ missing_columns.isEmpty then false
  else if ¬ f.numeric "likes" then false
  else if ¬ f.numeric "comments" then false
  else if ¬ f.numeric "reach" then false
  else if ¬ f.numeric "impressions" then false
  else true

/-- Python truthiness of the `post_types` argument: `if post_types:` is
false both for `None` and for an empty list. -/
def truthyList (o : Option (List String)) : Bool :=
  match o with
  | none => false
  | some l => ¬ l.isEmpty

/-- `DataProcessor.filter_data`: sequentially apply the date-range and
post-type filters, each guarded by Python truthiness of its argument
(a `pd.Timestamp` is always truthy, so `Option.isSome` models the date
guards; a list is truthy only when nonempty). -/
def filter_data (data : List Row) (start_date end_date : Option ℕ)
    (post_types : Option (List String)) : List Row :=
  let d₁ := match start_date with
    | some s => data.filter (fun r => s ≤ r.date)
    | none => data
  let d₂ := match end_date with
    | some e => d₁.filter (fun r => r.date ≤ e)
    | none => d₁
  if truthyList post_types then
    d₂.filter (fun r => (post_types.getD []).contains r.post_type)
  else d₂

/-- Modelled from the spec (for the refinement in C9): keep exactly the
rows satisfying the conjunction "date ≥ start when given, date ≤ end when
given, post_type ∈ post_types when given", omitted filters being no-ops. -/
def filter_spec (data : List Row) (start_date end_date : Option ℕ)
    (post_types : Option (List String)) : List Row :=
  data.filter (fun r =>
    (match start_date with | some s => decide (s ≤ r.date) | none => true) &&
    (match end_date with | some e => decide (r.date ≤ e) | none => true) &&
    (match post_types with | some pts => pts.contains r.post_type | none => true))

/-- Groupby key of a processed row: `(day_of_week, hour)`. -/
def rowKey (r : Row) : String × ℕ := (r.day_of_week, r.hour)

/-- Order on groupby keys: pandas `groupby(sort=True)` sorts group keys
lexicographically (day name as a string, then hour). -/
def keyLe (a b : String × ℕ) : Prop := a.1 < b.1 ∨ (a.1 = b.1 ∧ a.2 ≤ b.2)

instance : DecidableRel keyLe := fun a b => by
  unfold keyLe; infer_instance

instance : IsTotal (String × ℕ) keyLe := by
  constructor
  intro a b
  rcases lt_trichotomy a.1 b.1 with h | h | h
  · exact Or.inl (Or.inl h)
  · rcases Nat.le_total a.2 b.2 with h2 | h2
    · exact Or.inl (Or.inr ⟨h, h2⟩)
    · exact Or.inr (Or.inr ⟨h.symm, h2⟩)
  · exact Or.inr (Or.inl h)

instance : IsTrans (String × ℕ) keyLe := by
  constructor
  intro a b c hab hbc
  rcases hab with h | ⟨he, h2⟩
  · rcases hbc with h' | ⟨he', _⟩
    · exact Or.inl (h.trans h')
    · exact Or.inl (he' ▸ h)
  · rcases hbc with h' | ⟨he', h2'⟩
    · exact Or.inl (he ▸ h')
    · exact Or.inr ⟨he.trans he', h2.trans h2'⟩

/-- The distinct groupby keys present in the data, in the sorted order
pandas `groupby(['day_of_week', 'hour'])` (default `sort=True`) emits. -/
def groupKeys (data : List Row) : List (String × ℕ) :=
  List.insertionSort keyLe (data.map rowKey).dedup

/-- Mean `engagement_rate` of the rows of one `(day_of_week, hour)` group. -/
def groupMean (data : List Row) (k : String × ℕ) : ERat :=
  meanE ((data.filter (fun r => rowKey r = k)).map Row.engagement_rate)

/-- The `time_analysis` frame of `find_optimal_posting_times`: one row per
group key, carrying the group's mean engagement rate. -/
def time_analysis (data : List Row) : List ((String × ℕ) × ERat) :=
  (groupKeys data).map (fun k => (k, groupMean data k))

/-- Descending order on `time_analysis` rows by mean engagement rate, the
order underlying `day_data.nlargest(3, 'engagement_rate')`. -/
def gDesc (a b : (String × ℕ) × ERat) : Prop := b.2.leB a.2 = true

instance : DecidableRel gDesc := fun a b => by
  unfold gDesc; infer_instance

instance : IsTotal ((String × ℕ) × ERat) gDesc :=
  ⟨fun a b => (ERat.leB_total b.2 a.2).imp id id⟩

instance : IsTrans ((String × ℕ) × ERat) gDesc :=
  ⟨fun _ _ _ h h' => ERat.leB_trans h' h⟩

/-- Python `f"{hour:02d}:00"`: the hour zero-padded to two digits,
followed by `":00"`. -/
def fmtHour (h : ℕ) : String :=
  (if h < 10 then "0" ++ toString h else toString h) ++ ":00"

/-- The rows of `time_analysis` for one weekday
(`time_analysis[time_analysis['day_of_week'] == day]`). -/
def dayData (data : List Row) (day : String) : List ((String × ℕ) × ERat) :=
  (time_analysis data).filter (fun g => g.1.1 = day)

/-- The `top_hours` of one weekday, re-sorted for display
(`sorted(day_data.nlargest(3, 'engagement_rate')['hour'].values)`):
hours of the first three rows of the stable descending sort of the day's
groups by mean engagement rate, then Python `sorted` ascending. -/
def topHours (data : List Row) (day : String) : List ℕ :=
  List.insertionSort (· ≤ ·)
    (((List.insertionSort gDesc (dayData data day)).take 3).map (fun g => g.1.2))

/-- `Analytics.find_optimal_posting_times` on a processed dataset (which
always carries the `hour` column; the early-return branch for frames
without it is outside the row model): for each weekday in fixed order,
either the top 3 group hours by mean engagement rate, re-sorted ascending
by hour and formatted `"HH:00"`, or the sentinel `["No data"]`.  The
result models the insertion-ordered Python dict as an association list. -/
def find_optimal_posting_times (data : List Row) : List (String × List String) :=
  dayNames.map (fun day =>
    if (dayData data day).isEmpty then (day, ["No data"])
    else (day, (topHours data day).map fmtHour))

/-- Descending order on processed rows by engagement rate, the order
underlying `data.nlargest(limit, 'engagement_rate')` (`keep='first'`:
a stable descending sort, ties kept in original row order). -/
def rateDesc (a b : Row) : Prop := b.engagement_rate.leB a.engagement_rate = true

instance : DecidableRel rateDesc := fun a b => by
  unfold rateDesc; infer_instance

instance : IsTotal Row rateDesc :=
  ⟨fun a b => (ERat.leB_total b.engagement_rate a.engagement_rate).imp id id⟩

instance : IsTrans Row rateDesc :=
  ⟨fun _ _ _ h h' => ERat.leB_trans h' h⟩

/-- `Analytics.get_top_posts`: the first `limit` rows of the stable
descending sort by engagement rate. -/
def get_top_posts (data : List Row) (limit : ℕ) : List Row :=
  (List.insertionSort rateDesc data).take limit

/-- A content idea as built by `ContentPlanner.add_content_idea`.  The
wall-clock `created_at` string is passed in as an argument (`now`). -/
structure Idea where
  id : ℕ
  title : String
  description : String
  hashtags : String
  priority : String
  category : String
  created_at : String
  status : String
  used : Bool
deriving DecidableEq, Repr

/-- `ContentPlanner.add_content_idea`: append a new idea whose `id` is the
current list length plus one. -/
def add_content_idea (ideas : List Idea) (title description hashtags priority category now : String) :
    List Idea :=
  ideas ++ [{ id := ideas.length + 1
              title := title
              description := description
              hashtags := hashtags
              priority := priority
              category := category
              created_at := now
              status := "idea"
              used := false }]

/-- `ContentPlanner.delete_content_idea`: keep the ideas whose `id`
differs from the given one. -/
def delete_content_idea (ideas : List Idea) (idea_id : ℕ) : List Idea :=
  ideas.filter (fun idea => ¬ idea.id = idea_id)

/-- A calendar item, modelled as the Python dict it is: string keys to
string values. -/
abbrev CalItem := List (String × String)

/-- Python dict assignment `d[k] = v`: overwrite in place when the key
exists, else append at the end (insertion order semantics). -/
def dictSet (d : CalItem) (k v : String) : CalItem :=
  if d.any (fun p => p.1 = k) then
    d.map (fun p => if p.1 = k then (k, v) else p)
  else d ++ [(k, v)]

/-- The session content calendar: an insertion-ordered dict from date
strings to calendar items. -/
abbrev Calendar := List (String × CalItem)

/-- `ContentPlanner.update_calendar_item`: when the date key exists, set
one field of its item; otherwise do nothing. -/
def update_calendar_item (cal : Calendar) (date_str field value : String) : Calendar :=
  if cal.any (fun p => p.1 = date_str) then
    cal.map (fun p => if p.1 = date_str then (p.1, dictSet p.2 field value) else p)
  else cal

/-- `ContentPlanner.delete_calendar_item`: when the date key exists,
remove it; otherwise do nothing. -/
def delete_calendar_item (cal : Calendar) (date_str : String) : Calendar :=
  if cal.any (fun p => p.1 = date_str) then
    cal.filter (fun p => ¬ p.1 = date_str)
  else cal

/-- Concrete raw row (the scenario row of spec §8): a Monday-09:00 post
with likes 100, comments 20, reach 1000, impressions 2000, type photo. -/
def sampleRaw : RawRow := ⟨540, some 100, some 20, some 1000, some 2000, "photo"⟩

/-- Concrete raw row with zero reach and positive engagement. -/
def zeroReachRaw : RawRow := ⟨0, some 100, some 20, some 0, some 2000, "photo"⟩

/-- Concrete raw row with zero reach and missing likes and comments. -/
def zeroAllRaw : RawRow := ⟨0, none, none, some 0, none, "photo"⟩

/-- `fillna(0)` never leaves a `NaN` behind. -/
theorem fillnaZero_isNan (x : ERat) : (fillnaZero x).isNan = false := by
  cases x <;> rfl

/-- Membership in the processed dataset is membership in the enriched
input rows. -/
theorem mem_process_data {data : List RawRow} {r : Row} (hr : r ∈ process_data data) :
    ∃ raw ∈ data, enrich raw = r := by
  rw [process_data, List.mem_insertionSort] at hr
  exact List.mem_map.mp hr

/-- C1 (amended): the claim `reach = 0 ⇒ engagement_rate = 0` fails when
engagement is nonzero; what holds is: the rate is never `NaN`; with
`reach = 0` it is `0` when `engagement = 0`, `+inf` when engagement is
positive and `-inf` when negative; and with nonnegative likes, comments
and reach it lies in `[0, +inf]`. -/
theorem engagement_rate_spec (data : List RawRow) :
    ∀ r ∈ process_data data,
      r.engagement_rate.isNan = false ∧
      (r.reach = 0 → r.engagement = 0 → r.engagement_rate = ERat.val 0) ∧
      (r.reach = 0 → 0 < r.engagement → r.engagement_rate = ERat.posInf) ∧
      (r.reach = 0 → r.engagement < 0 → r.engagement_rate = ERat.negInf) ∧
      (0 ≤ r.likes → 0 ≤ r.comments → 0 ≤ r.reach →
        r.engagement_rate = ERat.posInf ∨ ∃ q, r.engagement_rate = ERat.val q ∧ 0 ≤ q) := by
  intro r hr
  obtain ⟨raw, -, rfl⟩ := mem_process_data hr
  simp only [enrich]
  refine ⟨fillnaZero_isNan _, ?_, ?_, ?_, ?_⟩
  · intro h0 he
    simp [rate100, h0, he, fillnaZero]
  · intro h0 he
    simp [rate100, h0, he, fillnaZero]
  · intro h0 he
    simp [rate100, h0, he, not_lt_of_gt he, fillnaZero]
  · intro hl hc h0
    have he : 0 ≤ fill0 raw.likes + fill0 raw.comments := add_nonneg hl hc
    by_cases hz : fill0 raw.reach = 0
    · rcases lt_or_eq_of_le he with hpos | hzero
      · left
        simp [rate100, hz, hpos, fillnaZero]
      · right
        exact ⟨0, by simp [rate100, hz, ← hzero, fillnaZero], le_refl 0⟩
    · right
      have hrpos : 0 < fill0 raw.reach := lt_of_le_of_ne h0 (Ne.symm hz)
      refine ⟨(fill0 raw.likes + fill0 raw.comments) / fill0 raw.reach * 100,
        by simp [rate100, hz, fillnaZero], ?_⟩
      have : (0:ℚ) ≤ (fill0 raw.likes + fill0 raw.comments) / fill0 raw.reach :=
        div_nonneg he (le_of_lt hrpos)
      exact mul_nonneg this (by norm_num)

/-- Witness for C1 at a concrete zero-reach, zero-engagement row. -/
theorem engagement_rate_spec_witness :
    (enrich zeroAllRaw).engagement_rate = ERat.val 0 :=
  ((engagement_rate_spec [zeroAllRaw] (enrich zeroAllRaw)
      (by simp [process_data, List.insertionSort, List.orderedInsert])).2.1)
    (by simp [enrich, zeroAllRaw, fill0]) (by simp [enrich, zeroAllRaw, fill0])

/-- Counterexample for C1 as stated: on a row with reach 0 and likes 100,
comments 20, the processed engagement rate is `+inf`, not `0`. -/
theorem engagement_rate_zero_reach_cex :
    ¬ ∀ r ∈ process_data [zeroReachRaw],
      r.reach = 0 → r.engagement_rate = ERat.val 0 := by
  intro h
  have hrate : (enrich zeroReachRaw).engagement_rate = ERat.posInf := by
    simp only [enrich, zeroReachRaw, fill0, Option.getD]
    norm_num [rate100, fillnaZero]
  have h0 : (enrich zeroReachRaw).reach = 0 := by simp [enrich, zeroReachRaw, fill0]
  have hz := h (enrich zeroReachRaw)
    (by simp [process_data, List.insertionSort, List.orderedInsert]) h0
  rw [hrate] at hz
  exact ERat.noConfusion hz

/-- C7: every processed row satisfies `engagement = likes + comments`
(on the 0-filled columns). -/
theorem process_data_engagement (data : List RawRow) :
    ∀ r ∈ process_data data, r.engagement = r.likes + r.comments := by
  intro r hr
  obtain ⟨raw, -, rfl⟩ := mem_process_data hr
  rfl

/-- Witness for C7 at the concrete sample row. -/
theorem process_data_engagement_witness :
    (enrich sampleRaw).engagement = (enrich sampleRaw).likes + (enrich sampleRaw).comments :=
  process_data_engagement [sampleRaw] (enrich sampleRaw)
    (by simp [process_data, List.insertionSort, List.orderedInsert])

/-- C8: the processed dataset is sorted ascending by date and is a
permutation of the enriched input rows (so, with list positions as the
row index, the index is dense and 0-based). -/
theorem process_data_sorted_by_date (data : List RawRow) :
    List.Sorted dateLe (process_data data) ∧
    (process_data data).Perm (data.map enrich) ∧
    (process_data data).length = data.length :=
  ⟨List.sorted_insertionSort dateLe _, List.perm_insertionSort dateLe _,
    by rw [process_data, List.length_insertionSort, List.length_map]⟩

/-- C3: validation fails whenever a required column is missing, and
whenever one of the four count columns is present but non-numeric.  The
model is a total Boolean function, so the `try/except` fail-closed
behaviour (never propagating an exception) holds by construction. -/
theorem validate_data_fail_closed (f : Frame) :
    ((∃ c ∈ required_columns, ¬ c ∈ f.names) → validate_data f = false) ∧
    (∀ c ∈ (["likes", "comments", "reach", "impressions"] : List String),
      f.numeric c = false → validate_data f = false) := by
  constructor
  · rintro ⟨c, hc, hn⟩
    simp only [validate_data]
    simp
    intro hall _ _ _
    exact absurd (hall c hc) hn
  · intro c hc hnum
    by_cases hm : (required_columns.filter (fun c => ¬ c ∈ f.names)).isEmpty
    · fin_cases hc <;> simp [validate_data, hm, hnum]
    · simp only [validate_data]
      simp
      intro hall _ _ _
      rw [List.isEmpty_iff] at hm
      obtain ⟨x, hx⟩ := List.exists_mem_of_ne_nil _ hm
      have hx' := List.mem_filter.mp hx
      exact absurd (hall x hx'.1) (by simpa using hx'.2)

/-- Witness for C3: a frame missing `date` fails, and a complete frame
with a non-numeric `likes` column fails. -/
theorem validate_data_fail_closed_witness :
    validate_data ⟨[("likes", true)]⟩ = false ∧
    validate_data ⟨[("date", true), ("likes", false), ("comments", true),
      ("reach", true), ("impressions", true), ("post_type", false)]⟩ = false :=
  ⟨(validate_data_fail_closed _).1 ⟨"date", by decide, by decide⟩,
   (validate_data_fail_closed _).2 "likes" (by decide) (by decide)⟩

/-- C4: a new content idea gets id `length + 1`, and the concrete
sequence add, add, add, delete id 2, add leaves two distinct ideas with
the same id (the id column becomes `[1, 3, 3]`). -/
theorem content_idea_ids (ideas : List Idea) (t d h p c n : String) :
    ((add_content_idea ideas t d h p c n).map Idea.id =
      ideas.map Idea.id ++ [ideas.length + 1]) ∧
    ((add_content_idea (delete_content_idea (add_content_idea (add_content_idea
        (add_content_idea [] "idea1" "" "" "Medium" "General" "now")
        "idea2" "" "" "Medium" "General" "now")
        "idea3" "" "" "Medium" "General" "now") 2)
        "idea4" "" "" "Medium" "General" "now").map Idea.id = [1, 3, 3]) := by
  constructor
  · simp [add_content_idea]
  · rfl

/-- C10: updating or deleting a calendar item under an absent date key
leaves the calendar unchanged (and, being total functions, the
operations cannot raise). -/
theorem calendar_missing_key_noop (cal : Calendar) (date_str field value : String)
    (h : ∀ p ∈ cal, p.1 ≠ date_str) :
    update_calendar_item cal date_str field value = cal ∧
    delete_calendar_item cal date_str = cal := by
  have hany : cal.any (fun p => p.1 = date_str) = false := by
    rw [List.any_eq_false]
    intro p hp
    simpa using h p hp
  constructor <;> simp [update_calendar_item, delete_calendar_item, hany]

/-- Witness for C10 at a concrete one-item calendar and an absent key. -/
theorem calendar_missing_key_noop_witness :
    update_calendar_item [("2024-01-01", [("status", "planned")])] "2024-01-02" "status" "posted"
      = [("2024-01-01", [("status", "planned")])] ∧
    delete_calendar_item [("2024-01-01", [("status", "planned")])] "2024-01-02"
      = [("2024-01-01", [("status", "planned")])] :=
  calendar_missing_key_noop _ "2024-01-02" "status" "posted" (by decide)

/-- Counterexample for C9 as stated: with `post_types` given as the empty
list, Python truthiness skips the post-type filter, so `filter_data`
keeps the sample row while the claimed conjunction (`post_type ∈ []`)
keeps nothing. -/
theorem filter_data_empty_post_types_cex :
    (filter_data [enrich sampleRaw] none none (some [])).length = 1 ∧
    (filter_spec [enrich sampleRaw] none none (some [])).length = 0 := by
  constructor <;> simp [filter_data, filter_spec, truthyList]

/-- C9 (amended): whenever `post_types` is not the given-but-empty list,
`filter_data` returns exactly the rows satisfying the conjunction of the
given inclusive-bound filters, omitted filters being no-ops; a
given-but-empty `post_types` list is additionally treated as omitted. -/
theorem filter_data_spec (data : List Row) (s e : Option ℕ) (pt : Option (List String))
    (hpt : pt ≠ some []) :
    filter_data data s e pt = filter_spec data s e pt := by
  rcases pt with - | l
  · rcases s with - | sv <;> rcases e with - | ev <;>
      simp [filter_data, filter_spec, truthyList, List.filter_filter] <;>
      exact List.filter_congr (fun x _ => by simp [Bool.and_comm])
  · rcases l with - | ⟨a, l⟩
    · exact absurd rfl hpt
    · rcases s with - | sv <;> rcases e with - | ev <;>
        simp [filter_data, filter_spec, truthyList, List.filter_filter] <;>
        exact List.filter_congr (fun x _ => by
          simp [Bool.and_comm, Bool.and_assoc, Bool.and_left_comm])

/-- Witness for C9 at the concrete sample dataset with all three filters
given (and `post_types` nonempty). -/
theorem filter_data_spec_witness :
    filter_data [enrich sampleRaw] (some 0) (some 99999) (some ["photo"]) =
      filter_spec [enrich sampleRaw] (some 0) (some 99999) (some ["photo"]) :=
  filter_data_spec [enrich sampleRaw] (some 0) (some 99999) (some ["photo"]) (by simp)

/-- C5: `get_top_posts data n` returns the n rows with the largest
engagement rate: the dataset splits as the returned rows plus dropped
rows, and every returned row's rate is at least every dropped row's
rate; the result is sorted descending, drawn from the dataset, of
length `min n |data|`; its first row (when present) has engagement rate
at least that of every row of the dataset; the result at any `n` is the
n-prefix of the full stable sort `get_top_posts data data.length`, in
which ties are kept in original row order (a pair appearing in data
order with equal rates appears in that order). -/
theorem get_top_posts_spec (data : List Row) (limit : ℕ) :
    (∃ dropped : List Row,
      (get_top_posts data limit ++ dropped).Perm data ∧
      ∀ x ∈ get_top_posts data limit, ∀ y ∈ dropped,
        y.engagement_rate.leB x.engagement_rate = true) ∧
    List.Sorted rateDesc (get_top_posts data limit) ∧
    (get_top_posts data limit).Subperm data ∧
    (get_top_posts data limit).length = min limit data.length ∧
    (∀ h ∈ (get_top_posts data limit).head?, ∀ x ∈ data,
      x.engagement_rate.leB h.engagement_rate = true) ∧
    (get_top_posts data limit = (get_top_posts data data.length).take limit) ∧
    (∀ a b : Row, List.Sublist [a, b] data → a.engagement_rate = b.engagement_rate →
      List.Sublist [a, b] (get_top_posts data data.length)) := by
  refine ⟨?_, ?_, ?_, ?_, ?_, ?_, ?_⟩
  · refine ⟨(List.insertionSort rateDesc data).drop limit, ?_, ?_⟩
    · rw [get_top_posts, List.take_append_drop]
      exact List.perm_insertionSort rateDesc data
    · intro x hx y hy
      have hpair : List.Pairwise rateDesc (List.insertionSort rateDesc data) :=
        List.sorted_insertionSort rateDesc data
      rw [← List.take_append_drop limit (List.insertionSort rateDesc data)] at hpair
      exact (List.pairwise_append.mp hpair).2.2 x hx y hy
  · exact List.Pairwise.sublist (List.take_sublist _ _) (List.sorted_insertionSort rateDesc data)
  · exact ((List.take_sublist _ _).subperm).trans (List.perm_insertionSort rateDesc data).subperm
  · rw [get_top_posts, List.length_take, List.length_insertionSort]
  · intro h hh x hx
    rw [get_top_posts] at hh
    cases hlim : limit with
    | zero =>
      rw [hlim, List.take_zero] at hh
      simp at hh
    | succ n =>
      cases hsort : List.insertionSort rateDesc data with
      | nil =>
        rw [hlim, hsort, List.take_nil] at hh
        simp at hh
      | cons y ys =>
        rw [hlim, hsort, List.take_succ_cons] at hh
        have hy : y = h := by simpa using hh
        subst hy
        have hsorted : List.Sorted rateDesc (y :: ys) := by
          rw [← hsort]
          exact List.sorted_insertionSort rateDesc data
        have hx' : x ∈ y :: ys := by
          rw [← hsort, List.mem_insertionSort]
          exact hx
        rcases List.mem_cons.mp hx' with rfl | hxs
        · exact ERat.leB_refl _
        · exact List.rel_of_sorted_cons hsorted x hxs
  · rw [get_top_posts, get_top_posts,
      List.take_of_length_le (le_of_eq (List.length_insertionSort rateDesc data))]
  · intro a b hsub heq
    have hfull : List.take data.length (List.insertionSort rateDesc data) =
        List.insertionSort rateDesc data :=
      List.take_of_length_le (le_of_eq (List.length_insertionSort rateDesc data))
    rw [get_top_posts, hfull]
    refine List.pair_sublist_insertionSort ?_ hsub
    show b.engagement_rate.leB a.engagement_rate = true
    rw [heq]
    exact ERat.leB_refl _

/-- Witness for C5 at the concrete one-row dataset. -/
theorem get_top_posts_spec_witness :
    (get_top_posts [enrich sampleRaw] 5).length = min 5 [enrich sampleRaw].length ∧
    (enrich sampleRaw).engagement_rate.leB (enrich sampleRaw).engagement_rate = true :=
  ⟨(get_top_posts_spec [enrich sampleRaw] 5).2.2.2.1,
   (get_top_posts_spec [enrich sampleRaw] 5).2.2.2.2.1 (enrich sampleRaw)
     (by simp [get_top_posts, List.insertionSort, List.orderedInsert])
     (enrich sampleRaw) (by simp)⟩

/-- A groupby key is present exactly when some row carries it. -/
theorem mem_groupKeys {data : List Row} {k : String × ℕ} :
    k ∈ groupKeys data ↔ ∃ r ∈ data, rowKey r = k := by
  rw [groupKeys, List.mem_insertionSort, List.mem_dedup, List.mem_map]

/-- The rows of the `time_analysis` frame are exactly the group keys
paired with their group means. -/
theorem mem_time_analysis {data : List Row} {g : (String × ℕ) × ERat} :
    g ∈ time_analysis data ↔ g.1 ∈ groupKeys data ∧ g.2 = groupMean data g.1 := by
  rw [time_analysis, List.mem_map]
  constructor
  · rintro ⟨k, hk, rfl⟩
    exact ⟨hk, rfl⟩
  · rintro ⟨hk, hg⟩
    obtain ⟨k, v⟩ := g
    simp only at hg
    exact ⟨k, hk, by rw [hg]⟩

/-- The groupby keys are distinct. -/
theorem groupKeys_nodup (data : List Row) : (groupKeys data).Nodup :=
  ((List.perm_insertionSort keyLe _).nodup_iff).mpr (List.nodup_dedup _)

/-- The `time_analysis` rows are distinct. -/
theorem time_analysis_nodup (data : List Row) : (time_analysis data).Nodup :=
  (groupKeys_nodup data).map_on
    (fun _ _ _ _ h => congrArg Prod.fst h)

/-- Characterization of one weekday's rows of `time_analysis`. -/
theorem mem_dayData {data : List Row} {day : String} {g : (String × ℕ) × ERat} :
    g ∈ dayData data day ↔
      g.1 ∈ groupKeys data ∧ g.1.1 = day ∧ g.2 = groupMean data g.1 := by
  rw [dayData, List.mem_filter, mem_time_analysis]
  constructor
  · rintro ⟨⟨hk, hm⟩, hd⟩
    exact ⟨hk, by simpa using hd, hm⟩
  · rintro ⟨hk, hd, hm⟩
    exact ⟨⟨hk, hm⟩, by simpa using hd⟩

/-- A weekday with no rows has no `time_analysis` rows. -/
theorem dayData_eq_nil {data : List Row} {day : String}
    (h : ∀ r ∈ data, r.day_of_week ≠ day) : dayData data day = [] := by
  rcases hx : dayData data day with - | ⟨g, t⟩
  · rfl
  · exfalso
    have hg : g ∈ dayData data day := by rw [hx]; exact List.mem_cons_self g t
    obtain ⟨hk, hd, -⟩ := mem_dayData.mp hg
    obtain ⟨r, hr, hkey⟩ := mem_groupKeys.mp hk
    apply h r hr
    have : (rowKey r).1 = day := by rw [hkey]; exact hd
    exact this

/-- A weekday with a row has a nonempty `dayData`. -/
theorem dayData_ne_nil {data : List Row} {day : String} {r : Row}
    (hr : r ∈ data) (hday : r.day_of_week = day) : dayData data day ≠ [] := by
  have hk : (day, r.hour) ∈ groupKeys data :=
    mem_groupKeys.mpr ⟨r, hr, by rw [rowKey, hday]⟩
  have hg : ((day, r.hour), groupMean data (day, r.hour)) ∈ dayData data day :=
    mem_dayData.mpr ⟨hk, rfl, rfl⟩
  exact List.ne_nil_of_mem hg

/-- An hour appears among a weekday's group rows exactly when some data
row has that weekday and hour. -/
theorem dayData_hour_mem (data : List Row) (day : String) (h' : ℕ) :
    (∃ g ∈ dayData data day, g.1.2 = h') ↔
      ∃ r ∈ data, r.day_of_week = day ∧ r.hour = h' := by
  constructor
  · rintro ⟨g, hg, rfl⟩
    obtain ⟨hk, hd, -⟩ := mem_dayData.mp hg
    obtain ⟨r, hr, hkey⟩ := mem_groupKeys.mp hk
    refine ⟨r, hr, ?_, ?_⟩
    · rw [show r.day_of_week = (rowKey r).1 from rfl, hkey, hd]
    · rw [show r.hour = (rowKey r).2 from rfl, hkey]
  · rintro ⟨r, hr, hday, hhour⟩
    refine ⟨((day, h'), groupMean data (day, h')), ?_, rfl⟩
    exact mem_dayData.mpr
      ⟨mem_groupKeys.mpr ⟨r, hr, by rw [rowKey, hday, hhour]⟩, rfl, rfl⟩

/-- C2: `find_optimal_posting_times` always returns exactly the seven
weekday keys Monday..Sunday in order, and any weekday with no rows is
mapped to the sentinel `["No data"]`. -/
theorem optimal_posting_times_seven_days (data : List Row) :
    (find_optimal_posting_times data).map Prod.fst = dayNames ∧
    (find_optimal_posting_times data).length = 7 ∧
    ∀ day ∈ dayNames, (∀ r ∈ data, r.day_of_week ≠ day) →
      (day, ["No data"]) ∈ find_optimal_posting_times data := by
  refine ⟨?_, ?_, ?_⟩
  · rw [find_optimal_posting_times, List.map_map]
    have hfst : (Prod.fst ∘ fun day =>
        if (dayData data day).isEmpty then (day, ["No data"])
        else (day, List.map fmtHour (topHours data day))) = fun day : String => day := by
      funext day
      simp [Function.comp, apply_ite Prod.fst]
    rw [hfst]
    exact List.map_id dayNames
  · rw [find_optimal_posting_times, List.length_map]
    rfl
  · intro day hday hnone
    refine List.mem_map.mpr ⟨day, hday, ?_⟩
    rw [dayData_eq_nil hnone]
    rfl

/-- Witness for C2: the empty dataset maps Monday to the sentinel. -/
theorem optimal_posting_times_seven_days_witness :
    ("Monday", ["No data"]) ∈ find_optimal_posting_times [] :=
  (optimal_posting_times_seven_days []).2.2 "Monday" (by decide) (by simp)

/-- C6: for a weekday with at least one row, the displayed value is the
list of the top (at most 3) hours of that day ranked by mean engagement
rate over the `(day_of_week, hour)` groups, formatted `"HH:00"` and
re-sorted ascending by hour: the hour list has length `min 3 (number of
groups of that day)`, is sorted ascending and duplicate-free, every
listed hour is an hour actually posted on that day, every listed hour's
group mean is at least every unlisted posted hour's group mean, and the
day's group hours are exactly its posted hours (so "fewer than 3" means
fewer distinct hours). -/
theorem optimal_posting_times_top3 (data : List Row) (day : String)
    (hday : day ∈ dayNames) (hrow : ∃ r ∈ data, r.day_of_week = day) :
    (day, (topHours data day).map fmtHour) ∈ find_optimal_posting_times data ∧
    (topHours data day).length = min 3 (dayData data day).length ∧
    List.Sorted (· ≤ ·) (topHours data day) ∧
    (topHours data day).Nodup ∧
    (∀ h ∈ topHours data day, ∃ r ∈ data, r.day_of_week = day ∧ r.hour = h) ∧
    (∀ h ∈ topHours data day, ∀ h',
      (∃ r ∈ data, r.day_of_week = day ∧ r.hour = h') → h' ∉ topHours data day →
      (groupMean data (day, h')).leB (groupMean data (day, h)) = true) ∧
    ((dayData data day).map (fun g => g.1.2)).Nodup ∧
    (∀ h', h' ∈ (dayData data day).map (fun g => g.1.2) ↔
      ∃ r ∈ data, r.day_of_week = day ∧ r.hour = h') := by
  obtain ⟨r0, hr0, hr0day⟩ := hrow
  have hne : dayData data day ≠ [] := dayData_ne_nil hr0 hr0day
  have hsperm : (List.insertionSort gDesc (dayData data day)).Perm (dayData data day) :=
    List.perm_insertionSort gDesc (dayData data day)
  have hddnodup : (dayData data day).Nodup := (time_analysis_nodup data).filter _
  have hsnodup : (List.insertionSort gDesc (dayData data day)).Nodup :=
    hsperm.nodup_iff.mpr hddnodup
  have ht3sub : List.Sublist ((List.insertionSort gDesc (dayData data day)).take 3)
      (List.insertionSort gDesc (dayData data day)) :=
    List.take_sublist 3 _
  have ht3mem : ∀ g ∈ (List.insertionSort gDesc (dayData data day)).take 3,
      g ∈ dayData data day :=
    fun g hg => hsperm.subset (ht3sub.subset hg)
  have hkeyinj : ∀ g ∈ dayData data day, ∀ g' ∈ dayData data day, g.1.2 = g'.1.2 → g = g' := by
    intro g hg g' hg' hh
    obtain ⟨-, hd, hm⟩ := mem_dayData.mp hg
    obtain ⟨-, hd', hm'⟩ := mem_dayData.mp hg'
    have hk : g.1 = g'.1 := Prod.ext (hd.trans hd'.symm) hh
    exact Prod.ext hk (by rw [hm, hm', hk])
  have hraw_nodup : (((List.insertionSort gDesc (dayData data day)).take 3).map
      (fun g => g.1.2)).Nodup :=
    (hsnodup.sublist ht3sub).map_on
      (fun x hx y hy hxy => hkeyinj x (ht3mem x hx) y (ht3mem y hy) hxy)
  have hie : (dayData data day).isEmpty = false := by
    rcases hx : dayData data day with - | ⟨g, t⟩
    · exact absurd hx hne
    · rfl
  refine ⟨?_, ?_, ?_, ?_, ?_, ?_, ?_, ?_⟩
  · refine List.mem_map.mpr ⟨day, hday, ?_⟩
    rw [hie]
    simp
  · rw [topHours, List.length_insertionSort, List.length_map, List.length_take,
      List.length_insertionSort]
  · exact List.sorted_insertionSort _ _
  · exact ((List.perm_insertionSort _ _).nodup_iff).mpr hraw_nodup
  · intro h hh
    rw [topHours, List.mem_insertionSort, List.mem_map] at hh
    obtain ⟨g, hg3, rfl⟩ := hh
    exact (dayData_hour_mem data day _).mp ⟨g, ht3mem g hg3, rfl⟩
  · intro h hh h' hrow' hnot
    rw [topHours, List.mem_insertionSort, List.mem_map] at hh
    obtain ⟨g, hg3, hgh⟩ := hh
    obtain ⟨r, hr, hrday, hrhour⟩ := hrow'
    have hg' : ((day, h'), groupMean data (day, h')) ∈ dayData data day :=
      mem_dayData.mpr
        ⟨mem_groupKeys.mpr ⟨r, hr, by rw [rowKey, hrday, hrhour]⟩, rfl, rfl⟩
    have hg's : ((day, h'), groupMean data (day, h')) ∈
        List.insertionSort gDesc (dayData data day) := by
      rw [List.mem_insertionSort]
      exact hg'
    have hsplit : (List.insertionSort gDesc (dayData data day)).take 3 ++
        (List.insertionSort gDesc (dayData data day)).drop 3 =
        List.insertionSort gDesc (dayData data day) :=
      List.take_append_drop 3 _
    have hpair : List.Pairwise gDesc (List.insertionSort gDesc (dayData data day)) :=
      List.sorted_insertionSort gDesc (dayData data day)
    rcases List.mem_append.mp (by rw [hsplit]; exact hg's) with hin | hdrop
    · refine absurd ?_ hnot
      rw [topHours, List.mem_insertionSort, List.mem_map]
      exact ⟨_, hin, rfl⟩
    · have hrel : gDesc g ((day, h'), groupMean data (day, h')) := by
        rw [← hsplit] at hpair
        exact (List.pairwise_append.mp hpair).2.2 g hg3 _ hdrop
      have hgd : g ∈ dayData data day := ht3mem g hg3
      obtain ⟨-, hd, hm⟩ := mem_dayData.mp hgd
      have hkey : g.1 = (day, h) := Prod.ext hd hgh
      rw [← hkey, ← hm]
      exact hrel
  · exact hddnodup.map_on (fun x hx y hy hxy => hkeyinj x hx y hy hxy)
  · intro h'
    rw [List.mem_map]
    exact dayData_hour_mem data day h'

/-- Witness for C6 at the concrete one-row Monday dataset. -/
theorem optimal_posting_times_top3_witness :
    ("Monday", (topHours (process_data [sampleRaw]) "Monday").map fmtHour) ∈
      find_optimal_posting_times (process_data [sampleRaw]) ∧
    (topHours (process_data [sampleRaw]) "Monday").length =
      min 3 (dayData (process_data [sampleRaw]) "Monday").length :=
  ⟨(optimal_posting_times_top3 (process_data [sampleRaw]) "Monday" (by decide)
      ⟨enrich sampleRaw, by simp [process_data, List.insertionSort, List.orderedInsert],
        by decide⟩).1,
   (optimal_posting_times_top3 (process_data [sampleRaw]) "Monday" (by decide)
      ⟨enrich sampleRaw, by simp [process_data, List.insertionSort, List.orderedInsert],
        by decide⟩).2.1⟩

end InstaAutomator
